import Mathlib

/-!
Verification of the whitehall FFI example payloads and of the spec's
annotation-driven FFI export/marshalling layer.

Sources embedded here:
- src/examples/15-ffi-cpp-basic/src/ffi/cpp/string_utils.cpp
- src/examples/ffi-cpp/src/ffi/cpp/math.cpp
- src/examples/ffi-cpp-rust/src/ffi/cpp/cpp_math.cpp

Modelling conventions:
- A C++ `std::string` is a `List Nat` of byte values (each in 0..255 for
  real inputs; the model is total on `Nat`).
- C's `tolower` / `toupper` / `isalnum` are modelled in the C locale on
  ASCII bytes, which is their behavior for the example payloads.
- C++ `int` is a 32-bit two's-complement integer: values are `Int` and
  arithmetic results are reduced by `wrap32` (two's-complement wraparound,
  the behavior of the repository's target toolchains).
- C++ `double` arithmetic in these examples is exact on the inputs of
  interest; doubles are modelled as `ℚ`.
-/

/-- Byte string of a Lean string literal (ASCII example inputs). -/
def bytes (s : String) : List Nat :=
  s.data.map Char.toNat

/-- C `toupper` in the C locale on a byte: maps a..z (97..122) to A..Z. -/
def c_toupper (c : Nat) : Nat :=
  if 97 ≤ c ∧ c ≤ 122 then c - 32 else c

/-- C `tolower` in the C locale on a byte: maps A..Z (65..90) to a..z. -/
def c_tolower (c : Nat) : Nat :=
  if 65 ≤ c ∧ c ≤ 90 then c + 32 else c

/-- C `isalnum` in the C locale on a byte: digits, uppercase, lowercase. -/
def c_isalnum (c : Nat) : Bool :=
  decide ((48 ≤ c ∧ c ≤ 57) ∨ (65 ≤ c ∧ c ≤ 90) ∨ (97 ≤ c ∧ c ≤ 122))

/-- `std::reverse` on a copied range: the two-pointer algorithm that swaps
the first and last elements and recurses on the interior. -/
def stdRev {α : Type} : List α → List α
  | [] => []
  | [a] => [a]
  | a :: b :: rest =>
    (b :: rest).getLast (by simp) :: (stdRev ((b :: rest).dropLast) ++ [a])
termination_by l => l.length
decreasing_by simp [List.length_dropLast]; omega

/-- `to_uppercase` from string_utils.cpp: copies the string and applies
`::toupper` to each character via `std::transform`, left to right. -/
def to_uppercase (str : List Nat) : List Nat :=
  str.foldl (fun acc c => acc ++ [c_toupper c]) []

/-- `to_lowercase` from string_utils.cpp. -/
def to_lowercase (str : List Nat) : List Nat :=
  str.foldl (fun acc c => acc ++ [c_tolower c]) []

/-- `reverse_string` from string_utils.cpp: copies the string and calls
`std::reverse` on it. -/
def reverse_string (str : List Nat) : List Nat :=
  stdRev str

/-- `count_vowels` from string_utils.cpp: iterates over the characters,
incrementing a counter on lowercase-folded vowels. -/
def count_vowels (str : List Nat) : Int :=
  str.foldl
    (fun count c =>
      let lower := c_tolower c
      if lower = 97 ∨ lower = 101 ∨ lower = 105 ∨ lower = 111 ∨ lower = 117
      then count + 1 else count)
    0

/-- `is_palindrome` from string_utils.cpp: builds `cleaned` by appending
`tolower c` for each alphanumeric character, reverses a copy with
`std::reverse`, and compares. -/
def is_palindrome (str : List Nat) : Bool :=
  let cleaned :=
    str.foldl (fun acc c => if c_isalnum c then acc ++ [c_tolower c] else acc) []
  let reversed := stdRev cleaned
  cleaned == reversed

/-- The loop of `repeat_string`: `for (int i = 0; i < times; i++) result += str`. -/
def repeatGo (str : List Nat) (times : Int) (i : Int) (acc : List Nat) : List Nat :=
  if i < times then repeatGo str times (i + 1) (acc ++ str) else acc
termination_by (times - i).toNat
decreasing_by omega

/-- `repeat_string` from string_utils.cpp. -/
def repeat_string (str : List Nat) (times : Int) : List Nat :=
  repeatGo str times 0 []

/-- Two's-complement wraparound to 32 bits (the behavior of `int`
arithmetic on the repository's target toolchains). -/
def wrap32 (n : Int) : Int :=
  (n + 2 ^ 31) % 2 ^ 32 - 2 ^ 31

/-- `add` from math.cpp and cpp_math.cpp: 32-bit `int` addition. -/
def add (a b : Int) : Int :=
  wrap32 (a + b)

/-- `multiply` from math.cpp and cpp_math.cpp: 32-bit `int` multiplication. -/
def multiply (a b : Int) : Int :=
  wrap32 (a * b)

/-- `divide` from math.cpp: returns the sentinel 0.0 when the divisor is
0.0, otherwise the quotient. -/
def divide (a b : ℚ) : ℚ :=
  if b = 0 then 0 else a / b

/-- `helper` from math.cpp: the non-exported doubling function. -/
def helper (x : Int) : Int :=
  wrap32 (x * 2)

/-- The loop of `power` from cpp_math.cpp:
`for (int i = 0; i < n; i++) result *= base`. -/
def powerGo (base : ℚ) (n : Int) (i : Int) (acc : ℚ) : ℚ :=
  if i < n then powerGo base n (i + 1) (acc * base) else acc
termination_by (n - i).toNat
decreasing_by omega

/-- `power` from cpp_math.cpp: `static_cast<int>(exponent)` truncates the
double toward zero, then the loop multiplies. -/
def power (base exponent : ℚ) : ℚ :=
  powerGo base (if exponent < 0 then exponent.ceil else exponent.floor) 0 1

-- ### Correctness of the std::reverse model

/-- The two-pointer swap reversal computes list reversal. -/
theorem stdRev_eq_reverse {α : Type} (l : List α) : stdRev l = l.reverse := by
  match l with
  | [] => simp [stdRev]
  | [a] => simp [stdRev]
  | a :: b :: rest =>
    rw [stdRev]
    have hne : b :: rest ≠ [] := by simp
    have hsplit : (b :: rest).dropLast ++ [(b :: rest).getLast hne] = b :: rest :=
      List.dropLast_append_getLast hne
    have ih := stdRev_eq_reverse ((b :: rest).dropLast)
    rw [ih]
    conv_rhs => rw [← hsplit]
    simp
termination_by l.length
decreasing_by simp [List.length_dropLast]; omega

/-- C1: `reverse_string` maps "level" to "level" and "Whitehall" to
"llahetihW", and in general returns the input with its characters in
reverse order. -/
theorem C1_reverse_string_correct :
    reverse_string (bytes ("level")) = bytes ("level") ∧
    reverse_string (bytes ("Whitehall")) = bytes ("llahetihW") ∧
    ∀ s : List Nat, reverse_string s = s.reverse := by
  refine ⟨?_, ?_, fun s => stdRev_eq_reverse s⟩
  · rw [reverse_string, stdRev_eq_reverse]; decide
  · rw [reverse_string, stdRev_eq_reverse]; decide

/-- C8: `reverse_string` is an involution. -/
theorem C8_reverse_string_involution (s : List Nat) :
    reverse_string (reverse_string s) = s := by
  simp [reverse_string, stdRev_eq_reverse]

/-- C2: `divide` returns the sentinel 0.0 for divisor 0.0 and the true
quotient for every nonzero divisor. -/
theorem C2_divide_sentinel :
    (∀ a : ℚ, divide a 0 = 0) ∧ ∀ a b : ℚ, b ≠ 0 → divide a b = a / b := by
  constructor
  · intro a; simp [divide]
  · intro a b h; simp [divide, h]

theorem C2_divide_sentinel_witness : divide 3 0 = 0 ∧ ((1 : ℚ) ≠ 0 ∧ divide 3 1 = 3 / 1) :=
  ⟨C2_divide_sentinel.1 3, by norm_num, C2_divide_sentinel.2 3 1 (by norm_num)⟩

/-- C3: `add 2 3 = 5`, and on every pair of in-range 32-bit signed integers
whose mathematical sum is in range, `add` returns the mathematical sum. -/
theorem C3_add_in_range :
    add 2 3 = 5 ∧
    ∀ a b : Int, -(2 ^ 31) ≤ a → a < 2 ^ 31 → -(2 ^ 31) ≤ b → b < 2 ^ 31 →
      -(2 ^ 31) ≤ a + b → a + b < 2 ^ 31 → add a b = a + b := by
  constructor
  · decide
  · intro a b _ _ _ _ h1 h2
    simp only [add, wrap32]
    omega

theorem C3_add_in_range_witness : add 2 3 = 2 + 3 :=
  C3_add_in_range.2 2 3 (by decide) (by decide) (by decide) (by decide)
    (by decide) (by decide)

/-- C4: `add INT_MAX 1` follows the two's-complement wraparound policy:
it returns the unique representative of the mathematical sum modulo 2^32
in the 32-bit signed range, namely -2^31; no failure path exists, so
exactly one behavior (wraparound) holds. -/
theorem C4_add_intmax_wraparound :
    add 2147483647 1 = -2147483648 ∧
    add 2147483647 1 % 2 ^ 32 = (2147483647 + 1) % 2 ^ 32 ∧
    -(2 ^ 31) ≤ add 2147483647 1 ∧ add 2147483647 1 < 2 ^ 31 := by
  refine ⟨by decide, by decide, by decide, by decide⟩

/-- The `repeat_string` loop appends `(times - i).toNat` copies of `str`
to the accumulator. -/
theorem repeatGo_eq (str : List Nat) :
    ∀ (k : Nat) (times i : Int) (acc : List Nat), (times - i).toNat = k →
      repeatGo str times i acc = acc ++ (List.replicate k str).flatten := by
  intro k
  induction k with
  | zero =>
    intro times i acc h
    rw [repeatGo]
    have hni : ¬ i < times := by omega
    simp [hni]
  | succ m ih =>
    intro times i acc h
    rw [repeatGo]
    have hlt : i < times := by omega
    rw [if_pos hlt, ih times (i + 1) (acc ++ str) (by omega)]
    simp [List.replicate_succ]

/-- C9: `repeat_string` returns the empty string for every `times ≤ 0`,
and the concatenation of `times` copies of the input for `times > 0`. -/
theorem C9_repeat_string_correct :
    (∀ (s : List Nat) (n : Int), n ≤ 0 → repeat_string s n = []) ∧
    (∀ (s : List Nat) (n : Int), 0 < n →
      repeat_string s n = (List.replicate n.toNat s).flatten) := by
  constructor
  · intro s n h
    have he := repeatGo_eq s 0 n 0 [] (by omega)
    simpa [repeat_string] using he
  · intro s n _
    have he := repeatGo_eq s n.toNat n 0 [] (by omega)
    simpa [repeat_string] using he

theorem C9_repeat_string_correct_witness :
    ((-1 : Int) ≤ 0 ∧ repeat_string (bytes ("ab")) (-1) = []) ∧
    ((0 : Int) < 2 ∧
      repeat_string (bytes ("ab")) 2 = (List.replicate (2 : Int).toNat (bytes ("ab"))).flatten) :=
  ⟨⟨by decide, C9_repeat_string_correct.1 (bytes ("ab")) (-1) (by decide)⟩,
   ⟨by decide, C9_repeat_string_correct.2 (bytes ("ab")) 2 (by decide)⟩⟩

/-- The spec-side description of the cleaning step in `is_palindrome`:
remove non-alphanumeric characters, then lowercase the remainder. -/
def cleanSpec (s : List Nat) : List Nat :=
  (s.filter c_isalnum).map c_tolower

theorem cleanSpec_cons (c : Nat) (s : List Nat) :
    cleanSpec (c :: s) =
      if c_isalnum c then c_tolower c :: cleanSpec s else cleanSpec s := by
  unfold cleanSpec
  rw [List.filter_cons]
  split <;> simp

theorem cleanSpec_append (u v : List Nat) :
    cleanSpec (u ++ v) = cleanSpec u ++ cleanSpec v := by
  unfold cleanSpec
  rw [List.filter_append, List.map_append]

/-- The `is_palindrome` cleaning fold computes `cleanSpec`. -/
theorem is_palindrome_foldl (s : List Nat) :
    ∀ acc : List Nat,
      s.foldl (fun acc c => if c_isalnum c then acc ++ [c_tolower c] else acc) acc
        = acc ++ cleanSpec s := by
  induction s with
  | nil => intro acc; simp [cleanSpec]
  | cons c rest ih =>
    intro acc
    rw [List.foldl_cons, cleanSpec_cons]
    cases hc : c_isalnum c <;> simp [ih]

theorem is_palindrome_iff (s : List Nat) :
    is_palindrome s = true ↔ cleanSpec s = (cleanSpec s).reverse := by
  unfold is_palindrome
  simp only [is_palindrome_foldl s [], List.nil_append, stdRev_eq_reverse, beq_iff_eq]

theorem is_palindrome_congr {x y : List Nat} (h : cleanSpec x = cleanSpec y) :
    is_palindrome x = is_palindrome y := by
  have hx := is_palindrome_iff x
  have hy := is_palindrome_iff y
  rw [h] at hx
  have hiff := hx.trans hy.symm
  cases hbx : is_palindrome x with
  | true => exact (hiff.mp hbx).symm
  | false =>
    cases hby : is_palindrome y with
    | true =>
      have hxT := hiff.mpr hby
      rw [hbx] at hxT
      exact absurd hxT (by simp)
    | false => rfl

theorem c_isalnum_toupper (c : Nat) : c_isalnum (c_toupper c) = c_isalnum c := by
  unfold c_isalnum c_toupper
  split
  · rw [decide_eq_decide]; omega
  · rfl

theorem c_isalnum_tolower (c : Nat) : c_isalnum (c_tolower c) = c_isalnum c := by
  unfold c_isalnum c_tolower
  split
  · rw [decide_eq_decide]; omega
  · rfl

theorem c_tolower_toupper (c : Nat) : c_tolower (c_toupper c) = c_tolower c := by
  unfold c_toupper c_tolower
  by_cases h : 97 ≤ c ∧ c ≤ 122
  · simp only [if_pos h]
    have h1 : 65 ≤ c - 32 ∧ c - 32 ≤ 90 := by omega
    have h2 : ¬ (65 ≤ c ∧ c ≤ 90) := by omega
    rw [if_pos h1, if_neg h2]
    omega
  · simp only [if_neg h]

theorem c_tolower_tolower (c : Nat) : c_tolower (c_tolower c) = c_tolower c := by
  unfold c_tolower
  by_cases h : 65 ≤ c ∧ c ≤ 90
  · simp only [if_pos h]
    have h1 : ¬ (65 ≤ c + 32 ∧ c + 32 ≤ 90) := by omega
    rw [if_neg h1]
  · simp only [if_neg h]

theorem cleanSpec_map_toupper (s : List Nat) :
    cleanSpec (s.map c_toupper) = cleanSpec s := by
  induction s with
  | nil => rfl
  | cons c rest ih =>
    rw [List.map_cons, cleanSpec_cons, cleanSpec_cons, c_isalnum_toupper,
      c_tolower_toupper, ih]

theorem cleanSpec_map_tolower (s : List Nat) :
    cleanSpec (s.map c_tolower) = cleanSpec s := by
  induction s with
  | nil => rfl
  | cons c rest ih =>
    rw [List.map_cons, cleanSpec_cons, cleanSpec_cons, c_isalnum_tolower,
      c_tolower_tolower, ih]

/-- C10: `is_palindrome` holds exactly when the lowercased alphanumeric
projection of the input equals its own reverse; consequently the result is
invariant under case changes and under insertion of non-alphanumeric
characters. -/
theorem C10_is_palindrome_correct :
    (∀ s : List Nat, (is_palindrome s = true ↔ cleanSpec s = (cleanSpec s).reverse)) ∧
    (∀ s : List Nat, is_palindrome (s.map c_toupper) = is_palindrome s ∧
        is_palindrome (s.map c_tolower) = is_palindrome s) ∧
    (∀ (u v : List Nat) (c : Nat), c_isalnum c = false →
        is_palindrome (u ++ c :: v) = is_palindrome (u ++ v)) := by
  refine ⟨is_palindrome_iff, ?_, ?_⟩
  · intro s
    exact ⟨is_palindrome_congr (cleanSpec_map_toupper s),
           is_palindrome_congr (cleanSpec_map_tolower s)⟩
  · intro u v c hc
    apply is_palindrome_congr
    rw [cleanSpec_append, cleanSpec_append, cleanSpec_cons, if_neg (by simp [hc])]

theorem C10_is_palindrome_correct_witness :
    c_isalnum 32 = false ∧
    is_palindrome ([97] ++ 32 :: [98]) = is_palindrome ([97] ++ [98]) :=
  ⟨by decide, C10_is_palindrome_correct.2.2 [97] [98] 32 (by decide)⟩

/-!
State-threading embeddings for the purity claim: each function is re-read
from its C++ body as a computation over an arbitrary ambient program state
`σ` (globals, heap, ...). Each body's statements only touch locals, so the
state is passed through each loop iteration unchanged; the theorems below
prove that the final state equals the initial one and that the result is
the pure function of the arguments, independent of the state.
-/

/-- A fold whose step leaves the threaded state component untouched is the
pure fold paired with the unchanged state. -/
theorem foldl_state {α σ : Type} (g : α → Nat → α) (s : List Nat) :
    ∀ (a : α) (w : σ),
      s.foldl (fun p c => (g p.1 c, p.2)) (a, w) = (s.foldl g a, w) := by
  induction s with
  | nil => intro a w; rfl
  | cons c rest ih => intro a w; rw [List.foldl_cons, List.foldl_cons]; exact ih (g a c) w

/-- `to_uppercase` with the ambient state threaded through the loop. -/
def to_uppercase_st (σ : Type) (str : List Nat) (w : σ) : List Nat × σ :=
  str.foldl (fun p c => (p.1 ++ [c_toupper c], p.2)) ([], w)

/-- `to_lowercase` with the ambient state threaded through the loop. -/
def to_lowercase_st (σ : Type) (str : List Nat) (w : σ) : List Nat × σ :=
  str.foldl (fun p c => (p.1 ++ [c_tolower c], p.2)) ([], w)

/-- `std::reverse` with the ambient state threaded through the swaps. -/
def stdRev_st (σ : Type) : List Nat → σ → List Nat × σ
  | [], w => ([], w)
  | [a], w => ([a], w)
  | a :: b :: rest, w =>
    let p := stdRev_st σ ((b :: rest).dropLast) w
    ((b :: rest).getLast (by simp) :: (p.1 ++ [a]), p.2)
termination_by l _ => l.length
decreasing_by simp [List.length_dropLast]; omega

theorem stdRev_st_eq (σ : Type) (l : List Nat) (w : σ) :
    stdRev_st σ l w = (stdRev l, w) := by
  match l with
  | [] => rw [stdRev_st, stdRev]
  | [a] => rw [stdRev_st, stdRev]
  | a :: b :: rest =>
    rw [stdRev_st, stdRev, stdRev_st_eq σ ((b :: rest).dropLast) w]
termination_by l.length
decreasing_by simp [List.length_dropLast]; omega

/-- `reverse_string` with the ambient state threaded through. -/
def reverse_string_st (σ : Type) (str : List Nat) (w : σ) : List Nat × σ :=
  stdRev_st σ str w

/-- `count_vowels` with the ambient state threaded through the loop. -/
def count_vowels_st (σ : Type) (str : List Nat) (w : σ) : Int × σ :=
  str.foldl
    (fun p c =>
      (let lower := c_tolower c
       if lower = 97 ∨ lower = 101 ∨ lower = 105 ∨ lower = 111 ∨ lower = 117
       then p.1 + 1 else p.1, p.2))
    (0, w)

/-- `is_palindrome` with the ambient state threaded through. -/
def is_palindrome_st (σ : Type) (str : List Nat) (w : σ) : Bool × σ :=
  let p := str.foldl
    (fun p c => (if c_isalnum c then p.1 ++ [c_tolower c] else p.1, p.2)) ([], w)
  let q := stdRev_st σ p.1 p.2
  (p.1 == q.1, q.2)

/-- The `repeat_string` loop with the ambient state threaded through. -/
def repeatGo_st (σ : Type) (str : List Nat) (times i : Int) (acc : List Nat)
    (w : σ) : List Nat × σ :=
  if i < times then repeatGo_st σ str times (i + 1) (acc ++ str) w else (acc, w)
termination_by (times - i).toNat
decreasing_by omega

theorem repeatGo_st_eq (σ : Type) (str : List Nat) (times i : Int)
    (acc : List Nat) (w : σ) :
    repeatGo_st σ str times i acc w = (repeatGo str times i acc, w) := by
  by_cases h : i < times
  · rw [repeatGo_st, repeatGo, if_pos h, if_pos h]
    exact repeatGo_st_eq σ str times (i + 1) (acc ++ str) w
  · rw [repeatGo_st, repeatGo, if_neg h, if_neg h]
termination_by (times - i).toNat
decreasing_by omega

/-- `repeat_string` with the ambient state threaded through. -/
def repeat_string_st (σ : Type) (str : List Nat) (times : Int) (w : σ) :
    List Nat × σ :=
  repeatGo_st σ str times 0 [] w

/-- `add` with the ambient state passed through. -/
def add_st (σ : Type) (a b : Int) (w : σ) : Int × σ :=
  (wrap32 (a + b), w)

/-- `multiply` with the ambient state passed through. -/
def multiply_st (σ : Type) (a b : Int) (w : σ) : Int × σ :=
  (wrap32 (a * b), w)

/-- `divide` with the ambient state passed through both branches. -/
def divide_st (σ : Type) (a b : ℚ) (w : σ) : ℚ × σ :=
  if b = 0 then (0, w) else (a / b, w)

/-- `helper` with the ambient state passed through. -/
def helper_st (σ : Type) (x : Int) (w : σ) : Int × σ :=
  (wrap32 (x * 2), w)

/-- The `power` loop with the ambient state threaded through. -/
def powerGo_st (σ : Type) (base : ℚ) (n i : Int) (acc : ℚ) (w : σ) : ℚ × σ :=
  if i < n then powerGo_st σ base n (i + 1) (acc * base) w else (acc, w)
termination_by (n - i).toNat
decreasing_by omega

theorem powerGo_st_eq (σ : Type) (base : ℚ) (n i : Int) (acc : ℚ) (w : σ) :
    powerGo_st σ base n i acc w = (powerGo base n i acc, w) := by
  by_cases h : i < n
  · rw [powerGo_st, powerGo, if_pos h, if_pos h]
    exact powerGo_st_eq σ base n (i + 1) (acc * base) w
  · rw [powerGo_st, powerGo, if_neg h, if_neg h]
termination_by (n - i).toNat
decreasing_by omega

/-- `power` with the ambient state threaded through. -/
def power_st (σ : Type) (base exponent : ℚ) (w : σ) : ℚ × σ :=
  powerGo_st σ base (if exponent < 0 then exponent.ceil else exponent.floor) 0 1 w

/-- C5: every function of the three source files is pure and stateless:
run over an arbitrary ambient state, each call returns the pure function
of its arguments (so two calls with the same arguments agree, whatever the
states) and leaves the state exactly as it found it. -/
theorem C5_all_functions_pure_stateless (σ : Type) (w : σ) :
    (∀ s, to_uppercase_st σ s w = (to_uppercase s, w)) ∧
    (∀ s, to_lowercase_st σ s w = (to_lowercase s, w)) ∧
    (∀ s, reverse_string_st σ s w = (reverse_string s, w)) ∧
    (∀ s, count_vowels_st σ s w = (count_vowels s, w)) ∧
    (∀ s, is_palindrome_st σ s w = (is_palindrome s, w)) ∧
    (∀ s n, repeat_string_st σ s n w = (repeat_string s n, w)) ∧
    (∀ a b, add_st σ a b w = (add a b, w)) ∧
    (∀ a b, multiply_st σ a b w = (multiply a b, w)) ∧
    (∀ a b, divide_st σ a b w = (divide a b, w)) ∧
    (∀ x, helper_st σ x w = (helper x, w)) ∧
    (∀ a b, power_st σ a b w = (power a b, w)) := by
  refine ⟨?_, ?_, ?_, ?_, ?_, ?_, ?_, ?_, ?_, ?_, ?_⟩
  · intro s; exact foldl_state (fun acc c => acc ++ [c_toupper c]) s [] w
  · intro s; exact foldl_state (fun acc c => acc ++ [c_tolower c]) s [] w
  · intro s; exact stdRev_st_eq σ s w
  · intro s
    exact foldl_state
      (fun count c =>
        let lower := c_tolower c
        if lower = 97 ∨ lower = 101 ∨ lower = 105 ∨ lower = 111 ∨ lower = 117
        then count + 1 else count) s 0 w
  · intro s
    unfold is_palindrome_st is_palindrome
    rw [foldl_state
      (fun acc c => if c_isalnum c then acc ++ [c_tolower c] else acc) s [] w]
    simp only [stdRev_st_eq]
  · intro s n; exact repeatGo_st_eq σ s n 0 [] w
  · intro a b; rfl
  · intro a b; rfl
  · intro a b; unfold divide_st divide; split <;> rfl
  · intro x; rfl
  · intro a b; exact powerGo_st_eq σ a _ 0 1 w

/-!
The FFI export and marshalling layer. Its implementation is not among the
example sources under src/; the definitions below are modelled from the
specification (Signature Extractor §4.1, Call Marshaller §4.4, error
taxonomy §7) and are exercised on the concrete source units of src/.
-/

/-- A line of a native source unit, as the Extractor sees it: the export
marker `// @ffi`, a function declaration (name, return type token,
parameter type tokens), or other text. -/
inductive SrcLine where
  | ffiMarker : SrcLine
  | decl : String → String → List String → SrcLine
  | comment : SrcLine
  | blank : SrcLine
  | code : SrcLine
deriving DecidableEq

/-- An exported function record produced by the Extractor: qualified name,
return type token, parameter type tokens. -/
structure ExportedFunction where
  name : String
  ret : String
  params : List String
deriving DecidableEq

/-- Modelled from the spec: the Signature Extractor (§4.1) is not among
the sources under src/. It scans a unit line by line and emits, in source
order, one `ExportedFunction` per declaration immediately preceded by the
export marker; `prev` records whether the previous line was the marker. -/
def extractGo (prev : Bool) : List SrcLine → List ExportedFunction
  | [] => []
  | SrcLine.ffiMarker :: rest => extractGo true rest
  | SrcLine.decl n r ps :: rest =>
      (if prev then [ExportedFunction.mk n r ps] else []) ++ extractGo false rest
  | SrcLine.comment :: rest => extractGo false rest
  | SrcLine.blank :: rest => extractGo false rest
  | SrcLine.code :: rest => extractGo false rest

/-- Modelled from the spec: the Extractor's output for a source unit. -/
def extract (unit : List SrcLine) : List ExportedFunction :=
  extractGo false unit

/-- Modelled from the spec: the manifest of a unit's `BindingArtifact`
(§3) lists exactly the names of the functions the Extractor exported. -/
def manifestNames (unit : List SrcLine) : List String :=
  (extract unit).map (fun f => f.name)

/-- Whether the unit contains a declaration of `n` immediately preceded by
the export marker (`prev` records whether the previous line was the marker). -/
def markedDecl (n : String) (prev : Bool) : List SrcLine → Bool
  | [] => false
  | SrcLine.ffiMarker :: rest => markedDecl n true rest
  | SrcLine.decl m _ _ :: rest => (prev && m == n) || markedDecl n false rest
  | SrcLine.comment :: rest => markedDecl n false rest
  | SrcLine.blank :: rest => markedDecl n false rest
  | SrcLine.code :: rest => markedDecl n false rest

/-- math.cpp line by line: four header comment lines, then `add`,
`multiply` and `divide` each under a `// @ffi` marker, then `helper`
preceded only by an ordinary comment. -/
def mathCppUnit : List SrcLine :=
  [SrcLine.comment, SrcLine.comment, SrcLine.comment, SrcLine.comment,
   SrcLine.blank,
   SrcLine.ffiMarker,
   SrcLine.decl ("add") ("int") [("int"), ("int")],
   SrcLine.code, SrcLine.code,
   SrcLine.blank,
   SrcLine.ffiMarker,
   SrcLine.decl ("multiply") ("int") [("int"), ("int")],
   SrcLine.code, SrcLine.code,
   SrcLine.blank,
   SrcLine.ffiMarker,
   SrcLine.decl ("divide") ("double") [("double"), ("double")],
   SrcLine.code, SrcLine.code, SrcLine.code, SrcLine.code, SrcLine.code,
   SrcLine.blank,
   SrcLine.comment,
   SrcLine.decl ("helper") ("int") [("int")],
   SrcLine.code, SrcLine.code]

theorem extractGo_not_marked (n : String) :
    ∀ (unit : List SrcLine) (prev : Bool), markedDecl n prev unit = false →
      ∀ f ∈ extractGo prev unit, f.name ≠ n := by
  intro unit
  induction unit with
  | nil =>
    intro prev _ f hf
    simp [extractGo] at hf
  | cons line rest ih =>
    intro prev h f hf
    cases line with
    | ffiMarker =>
      rw [markedDecl] at h
      rw [extractGo] at hf
      exact ih true h f hf
    | decl m r ps =>
      rw [markedDecl] at h
      rw [extractGo] at hf
      simp only [Bool.or_eq_false_iff, Bool.and_eq_false_iff] at h
      cases prev with
      | true =>
        simp only [if_pos] at hf
        rcases List.mem_append.mp hf with hf1 | hf2
        · have hm : m ≠ n := by
            rcases h.1 with hp | hm
            · exact absurd hp (by simp)
            · simpa using hm
          rcases List.mem_singleton.mp hf1 with rfl
          simpa using hm
        · exact ih false h.2 f hf2
      | false =>
        rw [if_neg (by simp), List.nil_append] at hf
        exact ih false h.2 f hf
    | comment =>
      rw [markedDecl] at h
      rw [extractGo] at hf
      exact ih false h f hf
    | blank =>
      rw [markedDecl] at h
      rw [extractGo] at hf
      exact ih false h f hf
    | code =>
      rw [markedDecl] at h
      rw [extractGo] at hf
      exact ih false h f hf

/-- C6: a function declaration never immediately preceded by the export
marker is absent from the Extractor's output and from the generated
manifest; in particular `helper` from math.cpp is exported nowhere. -/
theorem C6_unmarked_never_exported :
    (∀ (unit : List SrcLine) (n : String), markedDecl n false unit = false →
      (∀ f ∈ extract unit, f.name ≠ n) ∧ n ∉ manifestNames unit) ∧
    markedDecl ("helper") false mathCppUnit = false ∧
    (∀ f ∈ extract mathCppUnit, f.name ≠ ("helper")) ∧
    ("helper") ∉ manifestNames mathCppUnit := by
  have hgen : ∀ (unit : List SrcLine) (n : String), markedDecl n false unit = false →
      (∀ f ∈ extract unit, f.name ≠ n) ∧ n ∉ manifestNames unit := by
    intro unit n h
    have hext := extractGo_not_marked n unit false h
    refine ⟨hext, ?_⟩
    intro hmem
    rcases List.mem_map.mp hmem with ⟨f, hf, hfn⟩
    exact hext f hf hfn
  have hm : markedDecl ("helper") false mathCppUnit = false := by decide
  exact ⟨hgen, hm, (hgen mathCppUnit ("helper") hm).1, (hgen mathCppUnit ("helper") hm).2⟩

theorem C6_unmarked_never_exported_witness :
    markedDecl ("helper") false mathCppUnit = false ∧
    (∀ f ∈ extract mathCppUnit, f.name ≠ ("helper")) ∧
    ("helper") ∉ manifestNames mathCppUnit :=
  ⟨by decide,
   (C6_unmarked_never_exported.1 mathCppUnit ("helper") (by decide)).1,
   (C6_unmarked_never_exported.1 mathCppUnit ("helper") (by decide)).2⟩

/-- The canonical intermediate type representation (§3): a closed tagged
variant over integers (width, signedness), floating point, boolean, text
and void. -/
inductive CanonicalType where
  | integer : Nat → Bool → CanonicalType
  | floatingPoint : Nat → CanonicalType
  | boolean : CanonicalType
  | text : CanonicalType
  | void : CanonicalType
deriving DecidableEq

/-- A host value crossing the boundary at call time. -/
inductive HostValue where
  | intVal : Int → HostValue
  | floatVal : ℚ → HostValue
  | boolVal : Bool → HostValue
  | textVal : List Nat → HostValue
  | unitVal : HostValue
deriving DecidableEq

/-- The runtime marshalling failure subkinds (§7). -/
inductive MarshalReason where
  | outOfRange : MarshalReason
  | invalidEncoding : MarshalReason
  | arityMismatch : MarshalReason
deriving DecidableEq

/-- `MarshalError{functionName, argumentIndex|Return, reason}` (§4.4):
`argIndex = none` designates the return slot. -/
structure MarshalError where
  functionName : String
  argIndex : Option Nat
  reason : MarshalReason
deriving DecidableEq

/-- The canonical signature a generated stub enforces. -/
structure StubSignature where
  name : String
  params : List CanonicalType
  ret : CanonicalType

/-- Whether an integer value fits a fixed-width integer type. -/
def fitsInt (width : Nat) (signed : Bool) (n : Int) : Bool :=
  if signed then decide (-(2 ^ (width - 1)) ≤ n ∧ n < 2 ^ (width - 1))
  else decide (0 ≤ n ∧ n < 2 ^ width)

/-- Modelled from the spec: validation of one argument against its
expected `CanonicalType` (§4.4 step 1). A numeric value that does not fit
the declared width is an `outOfRange`; a value of the wrong variant
altogether is a signature mismatch, reported as `arityMismatch`. -/
def argCheck : HostValue → CanonicalType → Option MarshalReason
  | HostValue.intVal n, CanonicalType.integer w s =>
      if fitsInt w s n then none else some MarshalReason.outOfRange
  | HostValue.floatVal _, CanonicalType.floatingPoint _ => none
  | HostValue.boolVal _, CanonicalType.boolean => none
  | HostValue.textVal _, CanonicalType.text => none
  | _, _ => some MarshalReason.arityMismatch

/-- Whether a host value is of the variant its canonical type expects. -/
def kindMatches : HostValue → CanonicalType → Bool
  | HostValue.intVal _, CanonicalType.integer _ _ => true
  | HostValue.floatVal _, CanonicalType.floatingPoint _ => true
  | HostValue.boolVal _, CanonicalType.boolean => true
  | HostValue.textVal _, CanonicalType.text => true
  | _, _ => false

/-- Modelled from the spec: left-to-right argument validation, reporting
the first failure as `MarshalError{fname, argumentIndex, reason}`. -/
def findArgError (fname : String) : List CanonicalType → List HostValue → Nat →
    Option MarshalError
  | [], [], _ => none
  | [], _ :: _, _ => some (MarshalError.mk fname none MarshalReason.arityMismatch)
  | _ :: _, [], _ => some (MarshalError.mk fname none MarshalReason.arityMismatch)
  | p :: ps, a :: args, i =>
      match argCheck a p with
      | some r => some (MarshalError.mk fname (some i) r)
      | none => findArgError fname ps args (i + 1)

/-- Modelled from the spec: the Call Marshaller (§4.4) is not among the
sources under src/. Per call it validates every argument, then invokes the
native function at most once, then converts the result, raising
`MarshalError` on any failure. The second component counts native
invocations. -/
def marshalCall (sig : StubSignature) (native : List HostValue → HostValue)
    (args : List HostValue) : Except MarshalError HostValue × Nat :=
  match findArgError sig.name sig.params args 0 with
  | some e => (Except.error e, 0)
  | none =>
      let r := native args
      match argCheck r sig.ret with
      | some reason => (Except.error (MarshalError.mk sig.name none reason), 1)
      | none => (Except.ok r, 1)

theorem argCheck_of_kindMatches (a : HostValue) (p : CanonicalType)
    (h : kindMatches a p = true) :
    argCheck a p = none ∨ argCheck a p = some MarshalReason.outOfRange := by
  cases a <;> cases p <;> simp [kindMatches] at h <;> simp [argCheck]

/-- If every argument is of the expected variant and some argument is an
integer outside its declared width, validation reports `outOfRange`. -/
theorem findArgError_outOfRange (fname : String) :
    ∀ (ps : List CanonicalType) (args : List HostValue),
      List.Forall₂ (fun a p => kindMatches a p = true) args ps →
      ∀ (start i : Nat) (w : Nat) (s : Bool) (n : Int),
        ps.get? i = some (CanonicalType.integer w s) →
        args.get? i = some (HostValue.intVal n) →
        fitsInt w s n = false →
        ∃ e, findArgError fname ps args start = some e ∧
          e.reason = MarshalReason.outOfRange ∧ e.functionName = fname := by
  intro ps args hall
  induction hall with
  | nil =>
    intro start i w s n hp _ _
    simp at hp
  | cons hap htail ih =>
    intro start i w s n hp ha hfit
    rw [findArgError]
    cases i with
    | zero =>
      simp only [List.get?] at hp ha
      cases hp; cases ha
      rw [argCheck, if_neg (by simp [hfit])]
      exact ⟨_, rfl, rfl, rfl⟩
    | succ j =>
      simp only [List.get?] at hp ha
      rcases argCheck_of_kindMatches _ _ hap with hnone | hoor
      · rw [hnone]
        exact ih (start + 1) j w s n hp ha hfit
      · rw [hoor]
        exact ⟨_, rfl, rfl, rfl⟩

/-- C7: a call whose arguments are of the declared variants but in which
some fixed-width signed-integer argument lies outside its width's range
fails with `MarshalError{_, _, OutOfRange}` and never invokes the native
function. -/
theorem C7_out_of_range_never_invoked (sig : StubSignature)
    (native : List HostValue → HostValue) (args : List HostValue)
    (i w : Nat) (n : Int)
    (hkinds : List.Forall₂ (fun a p => kindMatches a p = true) args sig.params)
    (hp : sig.params.get? i = some (CanonicalType.integer w true))
    (ha : args.get? i = some (HostValue.intVal n))
    (hfit : fitsInt w true n = false) :
    (∃ e, (marshalCall sig native args).1 = Except.error e ∧
        e.reason = MarshalReason.outOfRange ∧ e.functionName = sig.name) ∧
    (marshalCall sig native args).2 = 0 := by
  obtain ⟨e, he, hr, hn⟩ :=
    findArgError_outOfRange sig.name sig.params args hkinds 0 i w true n hp ha hfit
  unfold marshalCall
  rw [he]
  exact ⟨⟨e, rfl, hr, hn⟩, rfl⟩

/-- The concrete canonical signature of the exported `add`. -/
def addSig : StubSignature :=
  StubSignature.mk ("add")
    [CanonicalType.integer 32 true, CanonicalType.integer 32 true]
    (CanonicalType.integer 32 true)

/-- The native `add`, lifted to the wire representation. -/
def addNative : List HostValue → HostValue
  | [HostValue.intVal a, HostValue.intVal b] => HostValue.intVal (add a b)
  | _ => HostValue.unitVal

theorem C7_out_of_range_never_invoked_witness :
    (∃ e, (marshalCall addSig addNative
        [HostValue.intVal 2147483648, HostValue.intVal 5]).1 = Except.error e ∧
        e.reason = MarshalReason.outOfRange ∧ e.functionName = addSig.name) ∧
    (marshalCall addSig addNative
        [HostValue.intVal 2147483648, HostValue.intVal 5]).2 = 0 :=
  C7_out_of_range_never_invoked addSig addNative
    [HostValue.intVal 2147483648, HostValue.intVal 5] 0 32 2147483648
    (List.Forall₂.cons (by decide)
      (List.Forall₂.cons (by decide) List.Forall₂.nil))
    rfl rfl (by decide)
